import Mathlib

/-!
Shallow embedding of `backup_bitbucket_snippets.py`, the chronological
multi-source snippet backup engine, together with proofs about its
documented behavior.  External effects (HTTP responses, git command
results, the current instant, the ISO-8601 parser of the standard
library) are passed in as explicit parameters; everything the script
itself computes is translated into executable Lean definitions.
-/

namespace SnippetBackup

/-! ## Basic string helpers mirroring the Python string operations used
by the script. -/

/-- Membership test `c in s` on a Python string. -/
def containsChar (s : String) (c : Char) : Bool :=
  s.toList.contains c

/-- Worker for `split(c, 1)`: everything before the first occurrence of
`c`, and everything after it. -/
def splitFirstAux (c : Char) : List Char → List Char × List Char
  | [] => ([], [])
  | x :: xs =>
    if x = c then ([], xs)
    else
      let r := splitFirstAux c xs
      (x :: r.1, r.2)

/-- Python `s.split(c, 1)` restricted to the two parts (the script only
calls it when `c` occurs in `s`). -/
def splitFirst (c : Char) (s : String) : String × String :=
  let p := splitFirstAux c s.toList
  (p.1.asString, p.2.asString)

/-- Python `s.replace(c, "")`: remove every occurrence of character `c`. -/
def removeChar (c : Char) (s : String) : String :=
  (s.toList.filter (fun x => x ≠ c)).asString

/-- Python `s.strip()`: drop whitespace at both ends. -/
def pyStrip (s : String) : String :=
  (((s.toList.dropWhile Char.isWhitespace).reverse.dropWhile Char.isWhitespace).reverse).asString

/-- Python `s[:n]`: the first `n` characters. -/
def pyTake (s : String) (n : Nat) : String :=
  (s.toList.take n).asString

/-- Worker for `s.replace("Z", "+00:00")` of line 374. -/
def replaceZAux : List Char → List Char
  | [] => []
  | c :: cs =>
    if c = 'Z' then '+' :: '0' :: '0' :: ':' :: '0' :: '0' :: replaceZAux cs
    else c :: replaceZAux cs

/-- Python `s.replace("Z", "+00:00")`. -/
def replaceZ (s : String) : String :=
  (replaceZAux s.toList).asString

/-- Python `a or b` on strings: `b` when `a` is empty. -/
def orDefault (s d : String) : String :=
  if s = "" then d else s

/-! ## Data model

Dictionaries flowing through the script are modelled as structures;
an absent key is `none`. -/

/-- The `author` object attached to a Bitbucket commit (or forged by the
synthesis branch): the script reads its `raw`, `nickname` and
`display_name` keys. -/
structure AuthorObj where
  raw : Option String
  nickname : Option String
  display_name : Option String
deriving DecidableEq

/-- The `owner` object of a snippet: the script reads `nickname` and
`display_name`. -/
structure OwnerInfo where
  nickname : Option String
  display_name : Option String
deriving DecidableEq

/-- The detail payload of `GET /snippets/ws/id`: file listing (file name
paired with the `links.self.href` string, defaulted to `""`), the
`updated_on` / `created_on` timestamps and the `owner` object. -/
structure SnippetDetail where
  files : Option (List (String × String))
  updated_on : Option String
  created_on : Option String
  owner : Option OwnerInfo
deriving DecidableEq

/-- One element of `all_pending_commits_data`. -/
structure PendingCommit where
  snippet_id : String
  snippet_title : String
  commit_sha : String
  commit_date_str : Option String
  commit_author_obj : AuthorObj
  commit_message_summary : String
  source_data_for_files_override : Option SnippetDetail
deriving DecidableEq

/-- One raw commit object from `GET /snippets/ws/id/commits`; `hash` and
`date` are accessed with mandatory indexing in the script. -/
structure CommitRaw where
  hash : String
  date : String
  author : AuthorObj
  message : Option String
deriving DecidableEq

/-- One catalog entry from Phase 1 (`snippet_info`). -/
structure SnippetCatalogEntry where
  id : Option String
  title : Option String
  owner : Option OwnerInfo
deriving DecidableEq

/-- The responses the remote API gives for one snippet during
aggregation: the paginated commits fetch and the single detail fetch
(`none` models a fetch that failed and degraded to `None`). -/
structure SnippetEnv where
  commits_fetch : Option (List CommitRaw)
  detail_fetch : Option SnippetDetail
deriving DecidableEq

/-! ## Phase 2: parse every commit date and sort globally (lines 369-378) -/

/-- Line 372-374: a non-string `commit_date_str` is replaced by the
current instant in ISO form, then `fromisoformat(s.replace("Z", "+00:00"))`
is applied.  `iso` is the standard-library parser, passed as a
parameter; `none` models a raised `ValueError`. -/
def parse_commit_date (iso : String → Option Int) (nowStr : String)
    (d : Option String) : Option Int :=
  iso (replaceZ (d.getD nowStr))

/-- The Phase-2 `for` loop: annotate every pending commit with its parsed
date; the surrounding `try` turns any parse failure into an abort of the
whole phase, modelled by `none`. -/
def annotate_dates (iso : String → Option Int) (nowStr : String) :
    List PendingCommit → Option (List (PendingCommit × Int))
  | [] => some []
  | pc :: rest =>
    match parse_commit_date iso nowStr pc.commit_date_str with
    | none => none
    | some t => (annotate_dates iso nowStr rest).map (fun r => (pc, t) :: r)

/-- The sort key of line 375: comparison of parsed dates. -/
def dateLE (a b : PendingCommit × Int) : Prop :=
  a.2 ≤ b.2

instance : DecidableRel dateLE := fun a b =>
  inferInstanceAs (Decidable (a.2 ≤ b.2))

instance : IsTotal (PendingCommit × Int) dateLE :=
  ⟨fun a b => Int.le_total a.2 b.2⟩

instance : IsTrans (PendingCommit × Int) dateLE :=
  ⟨fun _ _ _ h1 h2 => Int.le_trans h1 h2⟩

/-- Line 375: `sorted(..., key=lambda x: x.commit_date_obj)`.  Python
`sorted` is a stable sort; it is modelled by the (stable) insertion
sort. -/
def sort_pending (l : List (PendingCommit × Int)) : List (PendingCommit × Int) :=
  List.insertionSort dateLE l

/-- Phase 2 as a whole: `none` models the `except` branch that prints
`Aborting` and returns from `main`. -/
def phase2_sort_globally (iso : String → Option Int) (nowStr : String)
    (l : List PendingCommit) : Option (List (PendingCommit × Int)) :=
  (annotate_dates iso nowStr l).map sort_pending

/-! ## The retry decorator (lines 15-71) -/

/-- What one call of a wrapped fetch function does: return a value, or
raise a `RequestException` carrying an optional HTTP status and an
optional `Retry-After` header whose integer parse may fail (`some none`). -/
inductive FetchOutcome where
  | ok (v : Nat)
  | exc (status : Option Nat) (retryAfter : Option (Option Int))
deriving DecidableEq

/-- Line 39: the transiently retryable HTTP statuses. -/
def retryableStatuses : List Nat := [429, 500, 502, 503, 504]

/-- The `wrapper` loop of `retry_api_call`, driven by the successive
outcomes of the wrapped function.  Returns the final result and the
list of delays slept before each retry, in order. -/
def retry_api_call (max_retries : Nat) (initial_delay backoff_factor : Int) :
    Nat → List FetchOutcome → Option Nat × List Int
  | _, [] => (none, [])
  | attempts, .ok v :: _ =>
    if attempts < max_retries then (some v, []) else (none, [])
  | attempts, .exc status ra :: rest =>
    if attempts < max_retries then
      let attempts' := attempts + 1
      if attempts' = max_retries then (none, [])
      else
        match status with
        | some s =>
          if s ∈ retryableStatuses then
            let d : Int :=
              match ra with
              | some (some w) => w
              | _ => initial_delay * backoff_factor ^ (attempts' - 1)
            let r := retry_api_call max_retries initial_delay backoff_factor attempts' rest
            (r.1, d :: r.2)
          else (none, [])
        | none =>
          let d := initial_delay * backoff_factor ^ (attempts' - 1)
          let r := retry_api_call max_retries initial_delay backoff_factor attempts' rest
          (r.1, d :: r.2)
    else (none, [])

/-- A failure outcome the decorator classifies as transient. -/
def isTransient : FetchOutcome → Bool
  | .exc (some s) _ => s ∈ retryableStatuses
  | .exc none _ => true
  | .ok _ => false

/-- The delay the decorator sleeps before the retry following failure
number `i + 1`: the parsed `Retry-After` value when the failure carried
a parseable one together with an HTTP status, else the exponential
backoff formula. -/
def delayFor (d0 b : Int) (i : Nat) : FetchOutcome → Int
  | .exc (some _) (some (some w)) => w
  | _ => d0 * b ^ i

/-- The full expected delay schedule for a run of transient failures
starting at failure index `i`. -/
def schedDelays (d0 b : Int) : Nat → List FetchOutcome → List Int
  | _, [] => []
  | i, o :: os => delayFor d0 b i o :: schedDelays d0 b (i + 1) os

/-! ## The author identity derivation of Phase 3 (lines 398-411) -/

/-- Priority selection between the `nickname` and `display_name` keys
used when no usable `raw` string is present. -/
def nickOrDisplay (committer_name : String) (a : AuthorObj) : String :=
  match a.nickname with
  | some n => n
  | none =>
    match a.display_name with
    | some d => d
    | none => committer_name

/-- Lines 398-411: derive the Git author name and email from the commit
author object, with the configured committer identity as default. -/
def derive_author (committer_name committer_email : String) (a : AuthorObj) :
    String × String :=
  let rawV := a.raw.getD ""
  if rawV ≠ "" ∧ containsChar rawV '<' ∧ containsChar rawV '>' then
    let parts := splitFirst '<' rawV
    (orDefault (pyStrip parts.1) committer_name,
     orDefault (pyStrip (removeChar '>' parts.2)) committer_email)
  else if rawV ≠ "" then
    (orDefault (pyStrip rawV) committer_name, committer_email)
  else
    (nickOrDisplay committer_name a, committer_email)

/-! ## The regex of line 343

`re.search(r'/snippets/[^/]+/[^/]+/([^/]+)/files/', link)`.  Because
each `[^/]+` piece is followed by a literal `/`, backtracking cannot
shorten it, so the match at a given start position is the deterministic
maximal-munch parse implemented here; `search` tries start positions
left to right. -/

/-- One `[^/]+` piece: the maximal nonempty run of non-slash characters,
with the rest of the input. -/
def parseSeg (l : List Char) : Option (List Char × List Char) :=
  let seg := l.takeWhile (fun c => c ≠ '/')
  if seg = [] then none else some (seg, l.dropWhile (fun c => c ≠ '/'))

/-- Consume an exact literal, returning the rest of the input. -/
def dropLit : List Char → List Char → Option (List Char)
  | [], rest => some rest
  | _ :: _, [] => none
  | c :: cs, r :: rs => if r = c then dropLit cs rs else none

/-- Try the snippet-revision pattern at exactly this position; the
returned characters are capture group 1. -/
def matchSnippetAt (l : List Char) : Option (List Char) :=
  (dropLit "/snippets/".toList l).bind fun r1 =>
  (parseSeg r1).bind fun s1 =>
  (match s1.2 with | '/' :: r2 => some r2 | _ => none).bind fun r2 =>
  (parseSeg r2).bind fun s2 =>
  (match s2.2 with | '/' :: r3 => some r3 | _ => none).bind fun r3 =>
  (parseSeg r3).bind fun s3 =>
  (dropLit "/files/".toList s3.2).map fun _ => s3.1

/-- Leftmost search, one start position at a time. -/
def searchAux : List Char → Option (List Char)
  | [] => none
  | c :: rest =>
    match matchSnippetAt (c :: rest) with
    | some m => some m
    | none => searchAux rest

/-- `re.search` for the pattern of line 343, returning capture group 1. -/
def searchSnippetRev (s : String) : Option String :=
  (searchAux s.toList).map List.asString

/-! ## Phase 1 aggregation (lines 280-362) -/

/-- Lines 308-316: the pending-commit record built from one real commit
of the revision history. -/
def real_pending (id title : String) (c : CommitRaw) : PendingCommit :=
  { snippet_id := id
    snippet_title := title
    commit_sha := c.hash
    commit_date_str := some c.date
    commit_author_obj := c.author
    commit_message_summary := c.message.getD ("Revision " ++ pyTake c.hash 7)
    source_data_for_files_override := none }

/-- Lines 336-344: the revision identifier of the synthesized latest
state: the snippet id, unless the detail payload has a nonempty file
listing whose first file carries a self link matching the
snippet-revision pattern, whose capture then wins. -/
def extract_head_sha (id : String) (d : SnippetDetail) : String :=
  match d.files with
  | some ((_, href) :: _) =>
    match searchSnippetRev href with
    | some m => m
    | none => id
  | _ => id

/-- Lines 348-349: the author name of the synthesized commit, chosen
from the owner object of the detail payload, falling back to the
catalog entry owner, falling back to the configured committer name. -/
def synth_author_name (committer_name : String) (entry_owner : Option OwnerInfo)
    (d : SnippetDetail) : String :=
  let o := d.owner.getD (entry_owner.getD ⟨none, none⟩)
  o.nickname.getD (o.display_name.getD committer_name)

/-- Lines 336-362: the synthesized latest-state pending commit. -/
def synth_pending (committer_name nowStr id title : String)
    (entry_owner : Option OwnerInfo) (d : SnippetDetail) : PendingCommit :=
  let an := synth_author_name committer_name entry_owner d
  { snippet_id := id
    snippet_title := title
    commit_sha := extract_head_sha id d
    commit_date_str := some (d.updated_on.getD (d.created_on.getD nowStr))
    commit_author_obj :=
      { raw := some (an ++ " <placeholder@example.com>")
        nickname := some an
        display_name := some an }
    commit_message_summary := "Latest state of snippet " ++ title
    source_data_for_files_override := some d }

/-- The predicate of line 323: a pending commit of this snippet that is
a real revision (no files override). -/
def isRealOf (id : String) (pc : PendingCommit) : Bool :=
  pc.snippet_id == id && pc.source_data_for_files_override.isNone

/-- Lines 280-362: the body of the Phase-1 loop for one catalog entry,
appending to the global `all_pending_commits_data` accumulator. -/
def process_snippet (historical : Bool) (committer_name nowStr : String)
    (acc : List PendingCommit) (entry : SnippetCatalogEntry) (env : SnippetEnv) :
    List PendingCommit :=
  match entry.id with
  | none => acc
  | some id =>
    let title := entry.title.getD ("Untitled_Snippet_" ++ id)
    let acc1 :=
      if historical then
        match env.commits_fetch with
        | some cs => if cs ≠ [] then acc ++ cs.map (real_pending id title) else acc
        | none => acc
      else acc
    let needs_latest := !historical || !(acc1.any (isRealOf id))
    if needs_latest then
      match env.detail_fetch with
      | none => acc1
      | some d => acc1 ++ [synth_pending committer_name nowStr id title entry.owner d]
    else acc1

/-- The whole Phase-1 aggregation over the catalog. -/
def aggregate (historical : Bool) (committer_name nowStr : String)
    (snippets : List (SnippetCatalogEntry × SnippetEnv)) : List PendingCommit :=
  snippets.foldl
    (fun acc se => process_snippet historical committer_name nowStr acc se.1 se.2) []

/-- Count of synthesized (override-carrying) pending commits of snippet
`i` in a pending list. -/
def synth_count (l : List PendingCommit) (i : String) : Nat :=
  (l.filter (fun pc => pc.snippet_id == i && pc.source_data_for_files_override.isSome)).length

/-- Count of real (no-override) pending commits of snippet `i`. -/
def real_count (l : List PendingCommit) (i : String) : Nat :=
  (l.filter (isRealOf i)).length

/-- The pending commits one catalog entry with usable id `id`
contributes on its own, i.e. when no earlier pending commit carries its
id (the normal situation, catalog ids being distinct). -/
def snippet_block_core (historical : Bool) (cn ns id : String)
    (title0 : Option String) (owner : Option OwnerInfo) (env : SnippetEnv) :
    List PendingCommit :=
  let title := title0.getD ("Untitled_Snippet_" ++ id)
  let reals :=
    if historical then
      match env.commits_fetch with
      | some cs => if cs ≠ [] then cs.map (real_pending id title) else []
      | none => []
    else []
  let needs_latest := !historical || !(reals.any (isRealOf id))
  if needs_latest then
    match env.detail_fetch with
    | none => reals
    | some d => reals ++ [synth_pending cn ns id title owner d]
  else reals

/-- The pending commits one catalog entry contributes on its own. -/
def snippet_block (historical : Bool) (cn ns : String)
    (entry : SnippetCatalogEntry) (env : SnippetEnv) : List PendingCommit :=
  match entry.id with
  | none => []
  | some id => snippet_block_core historical cn ns id entry.title entry.owner env

/-- The usable identifiers of the catalog, in order. -/
def usable_ids (snippets : List (SnippetCatalogEntry × SnippetEnv)) : List String :=
  snippets.filterMap (fun se => se.1.id)

/-! ## The paginated fetch (lines 77-107) -/

/-- The decoded body of one response page: a JSON decode failure, an
object with a `values` array and an optional `next` link, a bare list,
or a bare object. -/
inductive ApiResp (V : Type) where
  | malformed
  | valuesObj (values : List V) (next : Option String)
  | bareList (items : List V)
  | bareObj (item : V)
deriving DecidableEq

/-- The `while` loop of `fetch_from_bitbucket_paginated`, with the page
budget as fuel.  Returns the final result (`none` is the JSON-failure
return) and the list of URLs requested, in order. -/
def fetch_paginated_loop {V : Type} (server : String → ApiResp V) :
    Nat → String → List V → Option (List V) × List String
  | 0, _, acc => (some acc, [])
  | fuel + 1, url, acc =>
    if url = "" then (some acc, [])
    else
      match server url with
      | .malformed => (none, [url])
      | .valuesObj vs next =>
        match next with
        | none => (some (acc ++ vs), [url])
        | some u =>
          if u = "" then (some (acc ++ vs), [url])
          else
            let r := fetch_paginated_loop server fuel u (acc ++ vs)
            (r.1, url :: r.2)
      | .bareList items => (some (acc ++ items), [url])
      | .bareObj it => (some (acc ++ [it]), [url])

/-- `fetch_from_bitbucket_paginated` with its hard cap of 100 pages. -/
def fetch_from_bitbucket_paginated {V : Type} (server : String → ApiResp V)
    (url : String) : Option (List V) × List String :=
  fetch_paginated_loop server 100 url []

/-- A well-formed page chain, as a list of URL / `values`-array pairs:
every URL answers with a `values` object carrying that array, each page
naming the next URL, the last omitting the link. -/
def isChain {V : Type} (server : String → ApiResp V) :
    List (String × List V) → Prop
  | [] => True
  | [(u, vs)] => u ≠ "" ∧ server u = .valuesObj vs none
  | (u, vs) :: (u2, vs2) :: rest =>
    u ≠ "" ∧ server u = .valuesObj vs (some u2) ∧
      isChain server ((u2, vs2) :: rest)

/-- Does a response carry a `values` array? -/
def isValuesResp {V : Type} : ApiResp V → Bool
  | .valuesObj _ _ => true
  | _ => false

/-- The `values` array of a response page (empty for the other shapes). -/
def valuesOf {V : Type} : ApiResp V → List V
  | .valuesObj vs _ => vs
  | _ => []

/-! ## The working-tree reconciliation of Phase 3 (lines 425-469) -/

/-- The per-snippet README path that line 462 exempts from deletion. -/
def readmeName : String := "README.md"

/-- Lines 431-449: the relative paths actually written this replay: the
mapping keys whose raw-content fetch returned data (`avail`). -/
def files_written (avail keys : Finset String) : Finset String :=
  keys ∩ avail

/-- Lines 461-467: the tracked paths `git rm` removes: previously
tracked, absent from the new mapping, and not the README. -/
def git_rm_set (prior keys : Finset String) : Finset String :=
  prior.filter (fun p => p ∉ keys ∧ p ≠ readmeName)

/-- The tracked file set of the snippet directory after one full
reconciliation: previous tracked files plus the files written, minus
the removed set (line 469 then stages the whole directory). -/
def reconcile_tracked (avail prior keys : Finset String) : Finset String :=
  (prior ∪ files_written avail keys) \ git_rm_set prior keys

/-! ## The commit decision of Phase 3 (lines 482-492) -/

/-- What the emitter does with one pending commit. -/
inductive EmitAction where
  | commitChanges
  | emptyMarker
  | skipped
deriving DecidableEq

/-- Lines 482-492: decide from the scoped `git status --porcelain`
output (`none` models a failed git invocation, which returns `False`)
whether to commit, emit an empty marker, or skip. -/
def emit_decision (historical : Bool) (status_output : Option String) : EmitAction :=
  match status_output with
  | some s =>
    if s ≠ "" ∧ pyStrip s ≠ "" then .commitChanges
    else if historical then .emptyMarker
    else .skipped
  | none =>
    if historical then .emptyMarker
    else .skipped

/-! # Theorems -/

/-! ## C9: the empty-commit policy of the emitter -/

/-- Claim C9: when the scoped status query reports nothing, historical
mode still emits an empty marker commit and latest-only mode skips;
when the staged change set is non-empty a commit is always emitted. -/
theorem emit_empty_policy (historical : Bool) (s : String) :
    (pyStrip s = "" →
      emit_decision historical (some s) =
        (if historical then EmitAction.emptyMarker else EmitAction.skipped))
    ∧ (pyStrip s ≠ "" →
      emit_decision historical (some s) = EmitAction.commitChanges) := by
  constructor
  · intro h
    simp [emit_decision, h]
  · intro h
    have hs : s ≠ "" := by
      intro he
      subst he
      exact h rfl
    simp [emit_decision, hs, h]

/-- Concrete instantiation of the C9 theorem. -/
theorem emit_empty_policy_witness :
    emit_decision true (some " ") = EmitAction.emptyMarker
    ∧ emit_decision false (some " ") = EmitAction.skipped
    ∧ emit_decision true (some "M f") = EmitAction.commitChanges := by
  refine ⟨?_, ?_, ?_⟩
  · simpa using (emit_empty_policy true " ").1 (by decide)
  · simpa using (emit_empty_policy false " ").1 (by decide)
  · exact (emit_empty_policy true "M f").2 (by decide)

/-! ## C7: the author identity derivation -/

/-- Claim C7 fails as stated: a raw string whose part before the first
angle bracket trims to empty does not yield the empty name; the
configured default name is substituted instead. -/
theorem derive_author_empty_name_counterexample :
    (derive_author "Snippet Backup Script" "backup@bitbucket-script.local"
        ⟨some "<jane@example.com>", none, none⟩).1 = "Snippet Backup Script"
    ∧ (derive_author "Snippet Backup Script" "backup@bitbucket-script.local"
        ⟨some "<jane@example.com>", none, none⟩).2 = "jane@example.com"
    ∧ ("Snippet Backup Script" : String) ≠ "" := by
  refine ⟨by decide, by decide, by decide⟩

/-- Claim C7 (amended): a raw author string containing both angle
brackets is split on the first occurrence into a trimmed name and a
trimmed email with every closing bracket removed, except that an empty
trimmed part falls back to the configured default; a nonempty raw
string without the bracket pair yields the whole trimmed string as name
(default when blank) with the default email; absent a raw string the
nickname key is used, else the display-name key, else the default
identity. -/
theorem derive_author_characterization (dn de : String) (a : AuthorObj) :
    (∀ raw, a.raw = some raw → raw ≠ "" →
      containsChar raw '<' = true → containsChar raw '>' = true →
      pyStrip (splitFirst '<' raw).1 ≠ "" →
      pyStrip (removeChar '>' (splitFirst '<' raw).2) ≠ "" →
      derive_author dn de a =
        (pyStrip (splitFirst '<' raw).1,
         pyStrip (removeChar '>' (splitFirst '<' raw).2)))
    ∧ (∀ raw, a.raw = some raw → raw ≠ "" →
      (containsChar raw '<' = false ∨ containsChar raw '>' = false) →
      derive_author dn de a = (orDefault (pyStrip raw) dn, de))
    ∧ ((a.raw = none ∨ a.raw = some "") →
      derive_author dn de a = (nickOrDisplay dn a, de)) := by
  refine ⟨?_, ?_, ?_⟩
  · intro raw hraw hne hlt hgt hn he
    simp only [derive_author, hraw, Option.getD_some]
    rw [if_pos ⟨hne, hlt, hgt⟩]
    simp [orDefault, hn, he]
  · intro raw hraw hne hor
    simp only [derive_author, hraw, Option.getD_some]
    rw [if_neg, if_pos hne]
    rintro ⟨-, h1, h2⟩
    rcases hor with h | h
    · rw [h] at h1
      cases h1
    · rw [h] at h2
      cases h2
  · intro hr
    rcases hr with h | h <;>
      simp [derive_author, h]

/-- Concrete instantiation of the amended C7 theorem: the Jane Doe
example of the spec. -/
theorem derive_author_characterization_witness :
    derive_author "DN" "DE" ⟨some "Jane Doe <jane@example.com>", none, none⟩ =
      ("Jane Doe", "jane@example.com") := by
  have h := (derive_author_characterization "DN" "DE"
      ⟨some "Jane Doe <jane@example.com>", none, none⟩).1
      "Jane Doe <jane@example.com>" rfl (by decide) (by decide) (by decide)
      (by decide) (by decide)
  exact h.trans (by decide)

/-! ## C3: parse failure handling during the global merge -/

/-- Claim C3 fails as stated: a single pending commit whose timestamp
string fails to parse aborts the whole merge step, even though the
other commit has a perfectly usable timestamp. -/
theorem merge_parse_abort_counterexample :
    phase2_sort_globally
        (fun s => if s = "2020-01-01T00:00:00+00:00" then some 5 else none) "NOW"
        [⟨"s1", "t", "sh", some "2020-01-01T00:00:00Z", ⟨none, none, none⟩, "m", none⟩,
         ⟨"s2", "t", "sh", some "garbage", ⟨none, none, none⟩, "m", none⟩] = none
    ∧ parse_commit_date
        (fun s => if s = "2020-01-01T00:00:00+00:00" then some 5 else none)
        "NOW" (some "2020-01-01T00:00:00Z") = some 5 := by
  refine ⟨by decide, by decide⟩

/-- Helper: the Phase-2 annotation loop fails exactly when some pending
commit has an unparseable date. -/
theorem annotate_dates_eq_none_iff (iso : String → Option Int) (nowStr : String) :
    ∀ l : List PendingCommit,
      annotate_dates iso nowStr l = none ↔
        ∃ pc ∈ l, parse_commit_date iso nowStr pc.commit_date_str = none := by
  intro l
  induction l with
  | nil => simp [annotate_dates]
  | cons pc rest ih =>
    cases hp : parse_commit_date iso nowStr pc.commit_date_str with
    | none =>
      simp only [annotate_dates, hp]
      exact ⟨fun _ => ⟨pc, List.mem_cons_self pc rest, hp⟩, fun _ => trivial⟩
    | some t =>
      simp only [annotate_dates, hp, Option.map_eq_none']
      rw [ih]
      constructor
      · rintro ⟨pc', h1, h2⟩
        exact ⟨pc', List.mem_cons_of_mem _ h1, h2⟩
      · rintro ⟨pc', h1, h2⟩
        rcases List.mem_cons.mp h1 with h | h
        · subst h
          rw [hp] at h2
          cases h2
        · exact ⟨pc', h, h2⟩

/-- Claim C3 (amended): a pending commit whose timestamp value is not a
string is parsed as the current instant; the merge step aborts exactly
when some timestamp (string or substituted) fails to parse, so any
single unparseable timestamp string is fatal. -/
theorem merge_parse_abort_characterization (iso : String → Option Int)
    (nowStr : String) (l : List PendingCommit) :
    (phase2_sort_globally iso nowStr l = none ↔
      ∃ pc ∈ l, parse_commit_date iso nowStr pc.commit_date_str = none)
    ∧ ∀ pc : PendingCommit, pc.commit_date_str = none →
        parse_commit_date iso nowStr pc.commit_date_str = iso (replaceZ nowStr) := by
  constructor
  · rw [phase2_sort_globally, Option.map_eq_none']
    exact annotate_dates_eq_none_iff iso nowStr l
  · intro pc h
    rw [h]
    rfl

/-- Concrete instantiation of the amended C3 theorem. -/
theorem merge_parse_abort_characterization_witness :
    phase2_sort_globally (fun _ => none) "N"
      [⟨"s", "t", "h", none, ⟨none, none, none⟩, "m", none⟩] = none := by
  have h := merge_parse_abort_characterization (fun _ => none) "N"
      [⟨"s", "t", "h", none, ⟨none, none, none⟩, "m", none⟩]
  exact h.1.mpr ⟨_, List.mem_singleton_self _, rfl⟩

/-! ## C4: the retry decorator -/

/-- Helper: once the attempt budget is exhausted the loop returns the
failure value without looking at further outcomes. -/
theorem retry_api_call_of_le (mr : Nat) (d0 b : Int) (a : Nat)
    (l : List FetchOutcome) (h : mr ≤ a) :
    retry_api_call mr d0 b a l = (none, []) := by
  have ha : ¬ a < mr := by omega
  cases l with
  | nil => rfl
  | cons o rest =>
    cases o with
    | ok v => simp [retry_api_call, ha]
    | exc st ra => simp [retry_api_call, ha]

/-- Helper: a run of transient failures followed by a success returns
the success and sleeps exactly the documented delay schedule. -/
theorem retry_transient_run (mr : Nat) (d0 b : Int) (v : Nat)
    (rest : List FetchOutcome) (fails : List FetchOutcome) :
    ∀ a : Nat,
      (∀ o ∈ fails, isTransient o = true) →
      a + fails.length + 1 ≤ mr →
      retry_api_call mr d0 b a (fails ++ .ok v :: rest) =
        (some v, schedDelays d0 b a fails) := by
  induction fails with
  | nil =>
    intro a _ hlen
    have ha : a < mr := by simpa using hlen
    simp [retry_api_call, ha, schedDelays]
  | cons o os ih =>
    intro a htrans hlen
    have ha : a < mr := by
      simp only [List.length_cons] at hlen
      omega
    have ha' : ¬ a + 1 = mr := by
      simp only [List.length_cons] at hlen
      omega
    have htr : isTransient o = true := htrans o (List.mem_cons_self o os)
    have hrec := ih (a + 1)
      (fun o' ho' => htrans o' (List.mem_cons_of_mem _ ho'))
      (by simp only [List.length_cons] at hlen; omega)
    cases o with
    | ok w => simp [isTransient] at htr
    | exc st ra =>
      cases st with
      | none =>
        simp only [List.cons_append, retry_api_call, if_pos ha, if_neg ha',
          List.append_eq, hrec, schedDelays, delayFor, Nat.add_sub_cancel]
      | some s =>
        have hs : s ∈ retryableStatuses := by
          simpa [isTransient] using htr
        cases ra with
        | none =>
          simp only [List.cons_append, retry_api_call, if_pos ha, if_neg ha',
            if_pos hs, List.append_eq, hrec, schedDelays, delayFor, Nat.add_sub_cancel]
        | some w =>
          cases w with
          | none =>
            simp only [List.cons_append, retry_api_call, if_pos ha, if_neg ha',
              if_pos hs, List.append_eq, hrec, schedDelays, delayFor, Nat.add_sub_cancel]
          | some wait =>
            simp only [List.cons_append, retry_api_call, if_pos ha, if_neg ha',
              if_pos hs, List.append_eq, hrec, schedDelays, delayFor, Nat.add_sub_cancel]

/-- Helper: a non-retryable HTTP status makes the wrapper give up at
once, with no sleep and no further call. -/
theorem retry_nonretryable (mr : Nat) (d0 b : Int) (s : Nat)
    (ra : Option (Option Int)) (rest : List FetchOutcome)
    (h : s ∉ retryableStatuses) :
    retry_api_call mr d0 b 0 (.exc (some s) ra :: rest) = (none, []) := by
  by_cases hm : 0 < mr
  · by_cases h1 : 1 = mr
    · simp [retry_api_call, hm, ← h1]
    · simp [retry_api_call, hm, h1, h]
  · exact retry_api_call_of_le mr d0 b 0 _ (by omega)

/-- Helper: when every outcome in a long enough run is a transient
failure, the attempt budget is exhausted and the final result is the
failure value. -/
theorem retry_exhaustion (mr : Nat) (d0 b : Int)
    (more : List FetchOutcome) (fails : List FetchOutcome) :
    ∀ a : Nat,
      (∀ o ∈ fails, isTransient o = true) →
      mr ≤ a + fails.length →
      (retry_api_call mr d0 b a (fails ++ more)).1 = none := by
  induction fails with
  | nil =>
    intro a _ hlen
    simp only [List.length_nil, Nat.add_zero] at hlen
    rw [List.nil_append, retry_api_call_of_le mr d0 b a more hlen]
  | cons o os ih =>
    intro a htrans hlen
    have htr : isTransient o = true := htrans o (List.mem_cons_self o os)
    by_cases ha : a < mr
    · have hrec := ih (a + 1)
        (fun o' ho' => htrans o' (List.mem_cons_of_mem _ ho'))
        (by simp only [List.length_cons] at hlen; omega)
      by_cases ha' : a + 1 = mr
      · cases o with
        | ok w => simp [isTransient] at htr
        | exc st ra =>
          simp [retry_api_call, ha, ha']
      · cases o with
        | ok w => simp [isTransient] at htr
        | exc st ra =>
          cases st with
          | none =>
            simp only [List.cons_append, retry_api_call, if_pos ha, if_neg ha']
            exact hrec
          | some s =>
            have hs : s ∈ retryableStatuses := by
              simpa [isTransient] using htr
            simp only [List.cons_append, retry_api_call, if_pos ha, if_neg ha',
              if_pos hs]
            exact hrec
    · rw [retry_api_call_of_le mr d0 b a _ (by omega)]

/-- Claim C4: a transient failure class (429/500/502/503/504 or a
connection failure with no response) is retried within the attempt
budget, sleeping `initial_delay * backoff_factor ^ (attempt - 1)`
before each retry unless a parseable Retry-After value overrides that
delay; any other HTTP status is not retried; a long enough run of
transient failures exhausts the budget and yields the failure value. -/
theorem retry_api_call_policy (mr : Nat) (d0 b : Int) :
    (∀ (fails : List FetchOutcome) (v : Nat) (rest : List FetchOutcome),
      (∀ o ∈ fails, isTransient o = true) →
      fails.length + 1 ≤ mr →
      retry_api_call mr d0 b 0 (fails ++ .ok v :: rest) =
        (some v, schedDelays d0 b 0 fails))
    ∧ (∀ (s : Nat) (ra : Option (Option Int)) (rest : List FetchOutcome),
      s ∉ retryableStatuses →
      retry_api_call mr d0 b 0 (.exc (some s) ra :: rest) = (none, []))
    ∧ (∀ (fails more : List FetchOutcome),
      (∀ o ∈ fails, isTransient o = true) →
      mr ≤ fails.length →
      (retry_api_call mr d0 b 0 (fails ++ more)).1 = none) := by
  refine ⟨?_, ?_, ?_⟩
  · intro fails v rest ht hl
    exact retry_transient_run mr d0 b v rest fails 0 ht (by omega)
  · intro s ra rest h
    exact retry_nonretryable mr d0 b s ra rest h
  · intro fails more ht hl
    exact retry_exhaustion mr d0 b more fails 0 ht (by omega)

/-- Concrete instantiation of the C4 theorem: a 429 response with wait
hint 5 makes the single retry wait 5 units; a 404 is not retried; three
consecutive transient failures exhaust a budget of 3 attempts. -/
theorem retry_api_call_policy_witness :
    retry_api_call 3 2 2 0 [.exc (some 429) (some (some 5)), .ok 7] = (some 7, [5])
    ∧ retry_api_call 3 2 2 0 [.exc (some 404) none, .ok 7] = (none, [])
    ∧ (retry_api_call 3 2 2 0
        [.exc none none, .exc (some 500) none, .exc (some 503) none, .ok 7]).1 = none := by
  refine ⟨?_, ?_, ?_⟩
  · have h := (retry_api_call_policy 3 2 2).1 [.exc (some 429) (some (some 5))] 7 []
      (by decide) (by decide)
    exact h.trans (by decide)
  · exact (retry_api_call_policy 3 2 2).2.1 404 none [.ok 7] (by decide)
  · have h := (retry_api_call_policy 3 2 2).2.2
      [.exc none none, .exc (some 500) none, .exc (some 503) none] [.ok 7]
      (by decide) (by decide)
    exact h

/-! ## C1: the global chronological sort -/

/-- Helper: inserting an element into a list leaves the sublist of any
fixed parsed date unchanged, except that an element of that very date
is placed in front. -/
theorem filter_orderedInsert_key (t : Int) (x : PendingCommit × Int) :
    ∀ l : List (PendingCommit × Int),
      (List.orderedInsert dateLE x l).filter (fun a => decide (a.2 = t)) =
        if x.2 = t then x :: l.filter (fun a => decide (a.2 = t))
        else l.filter (fun a => decide (a.2 = t)) := by
  intro l
  induction l with
  | nil =>
    simp only [List.orderedInsert, List.filter]
    by_cases hx : x.2 = t <;> simp [hx]
  | cons b bs ih =>
    by_cases hxb : dateLE x b
    · rw [List.orderedInsert_of_le dateLE bs hxb]
      by_cases hx : x.2 = t <;> simp [List.filter_cons, hx]
    · have hstep : List.orderedInsert dateLE x (b :: bs) =
          b :: List.orderedInsert dateLE x bs := by
        simp [List.orderedInsert, hxb]
      rw [hstep]
      by_cases hb : b.2 = t
      · have hx : ¬ x.2 = t := by
          intro hx
          exact hxb (by simp [dateLE, hx, hb])
        simp [List.filter_cons, hb, hx, ih]
      · simp [List.filter_cons, hb, ih]

/-- Helper: the stable sort of Phase 2 keeps the elements of any fixed
parsed date in their input order. -/
theorem filter_sort_pending (t : Int) :
    ∀ l : List (PendingCommit × Int),
      (sort_pending l).filter (fun a => decide (a.2 = t)) =
        l.filter (fun a => decide (a.2 = t)) := by
  intro l
  induction l with
  | nil => rfl
  | cons b bs ih =>
    show (List.orderedInsert dateLE b (List.insertionSort dateLE bs)).filter _ = _
    rw [filter_orderedInsert_key t b (List.insertionSort dateLE bs)]
    by_cases hb : b.2 = t <;> simp [List.filter_cons, hb] <;> exact ih

/-- Claim C1: in the merged output, a pending commit with a strictly
smaller parsed timestamp than a pending commit of another source is
emitted strictly earlier; pending commits with the same parsed
timestamp stay in their encounter order because the sort is stable. -/
theorem global_sort_chronological_and_stable
    (iso : String → Option Int) (nowStr : String) (l : List PendingCommit)
    (ann out : List (PendingCommit × Int))
    (hann : annotate_dates iso nowStr l = some ann)
    (hout : phase2_sort_globally iso nowStr l = some out) :
    (∀ i j : Fin out.length,
      (out.get i).1.snippet_id ≠ (out.get j).1.snippet_id →
      (out.get i).2 < (out.get j).2 → (i : Nat) < (j : Nat))
    ∧ ∀ t : Int,
        out.filter (fun a => decide (a.2 = t)) =
          ann.filter (fun a => decide (a.2 = t)) := by
  have hout' : out = sort_pending ann := by
    rw [phase2_sort_globally, hann, Option.map_some'] at hout
    exact (Option.some.injEq _ _ ▸ hout).symm
  subst hout'
  constructor
  · intro i j _ hlt
    have hs : List.Sorted dateLE (sort_pending ann) :=
      List.sorted_insertionSort dateLE ann
    by_contra hij
    push_neg at hij
    rcases Nat.lt_or_ge (j : Nat) (i : Nat) with h | h
    · have hrel := hs.rel_get_of_lt (a := j) (b := i) h
      exact absurd hlt (not_lt.mpr hrel)
    · have hji : (i : Nat) = (j : Nat) := Nat.le_antisymm (by omega) (by omega)
      have : i = j := Fin.ext hji
      subst this
      exact lt_irrefl _ hlt
  · intro t
    exact filter_sort_pending t ann

/-- Concrete instantiation of the C1 theorem: the later-dated commit of
source s2 appears after the earlier-dated commit of source s1 even
though s2 came first in the input. -/
theorem global_sort_chronological_and_stable_witness :
    (0 : Nat) < 1 := by
  have h := global_sort_chronological_and_stable
    (fun s => if s = "A" then some 10 else if s = "B" then some 20 else none) "NOW"
    [⟨"s2", "t2", "sh2", some "B", ⟨none, none, none⟩, "m", none⟩,
     ⟨"s1", "t1", "sh1", some "A", ⟨none, none, none⟩, "m", none⟩]
    [(⟨"s2", "t2", "sh2", some "B", ⟨none, none, none⟩, "m", none⟩, 20),
     (⟨"s1", "t1", "sh1", some "A", ⟨none, none, none⟩, "m", none⟩, 10)]
    [(⟨"s1", "t1", "sh1", some "A", ⟨none, none, none⟩, "m", none⟩, 10),
     (⟨"s2", "t2", "sh2", some "B", ⟨none, none, none⟩, "m", none⟩, 20)]
    (by decide) (by decide)
  exact h.1 ⟨0, by decide⟩ ⟨1, by decide⟩ (by decide) (by decide)

/-! ## C8: the paginated fetch -/

/-- Helper: the first URL of a chain is usable. -/
theorem isChain_head_ne {V : Type} (server : String → ApiResp V) :
    ∀ (rest : List (String × List V)) (u : String) (vs : List V),
      isChain server ((u, vs) :: rest) → u ≠ "" := by
  intro rest u vs h
  cases rest with
  | nil =>
    simp only [isChain] at h
    exact h.1
  | cons p rest' =>
    obtain ⟨u2, vs2⟩ := p
    simp only [isChain] at h
    exact h.1

/-- Helper: running the pagination loop along a well-formed chain that
fits in the fuel visits exactly the chain URLs and accumulates exactly
the concatenated `values` arrays. -/
theorem fetch_loop_chain {V : Type} (server : String → ApiResp V) :
    ∀ (rest : List (String × List V)) (u : String) (vs : List V)
      (fuel : Nat) (acc : List V),
      isChain server ((u, vs) :: rest) →
      rest.length + 1 ≤ fuel →
      fetch_paginated_loop server fuel u acc =
        (some (acc ++ vs ++ (rest.map Prod.snd).flatten), u :: rest.map Prod.fst) := by
  intro rest
  induction rest with
  | nil =>
    intro u vs fuel acc hch hlen
    obtain ⟨hne, hserv⟩ : u ≠ "" ∧ server u = .valuesObj vs none := by
      simpa [isChain] using hch
    cases fuel with
    | zero => omega
    | succ f =>
      simp [fetch_paginated_loop, hne, hserv]
  | cons p rest' ih =>
    obtain ⟨u2, vs2⟩ := p
    intro u vs fuel acc hch hlen
    obtain ⟨hne, hserv, hch'⟩ :
        u ≠ "" ∧ server u = .valuesObj vs (some u2) ∧
          isChain server ((u2, vs2) :: rest') := by
      simpa [isChain] using hch
    have hne2 : u2 ≠ "" := isChain_head_ne server rest' u2 vs2 hch'
    cases fuel with
    | zero => simp at hlen
    | succ f =>
      have hlen' : rest'.length + 1 ≤ f := by
        simp only [List.length_cons] at hlen
        omega
      simp only [fetch_paginated_loop, if_neg hne, hserv, if_neg hne2,
        ih u2 vs2 f (acc ++ vs) hch' hlen', List.map_cons, List.flatten_cons,
        List.append_assoc, List.cons_append]

/-- Helper: the loop never requests more pages than its fuel allows. -/
theorem fetch_loop_visited_le {V : Type} (server : String → ApiResp V) :
    ∀ (fuel : Nat) (u : String) (acc : List V),
      (fetch_paginated_loop server fuel u acc).2.length ≤ fuel := by
  intro fuel
  induction fuel with
  | zero =>
    intro u acc
    simp [fetch_paginated_loop]
  | succ f ih =>
    intro u acc
    by_cases hu : u = ""
    · simp [fetch_paginated_loop, hu]
    · cases hs : server u with
      | malformed => simp [fetch_paginated_loop, hu, hs]
      | valuesObj vs next =>
        cases next with
        | none => simp [fetch_paginated_loop, hu, hs]
        | some u2 =>
          by_cases hu2 : u2 = ""
          · simp [fetch_paginated_loop, hu, hs, hu2]
          · simp only [fetch_paginated_loop, if_neg hu, hs, if_neg hu2,
              List.length_cons]
            exact Nat.succ_le_succ (ih u2 (acc ++ vs))
      | bareList items => simp [fetch_paginated_loop, hu, hs]
      | bareObj it => simp [fetch_paginated_loop, hu, hs]

/-- Helper: whenever every visited page carried a `values` array -- in
particular when the loop stops at the page cap or at a missing next
link -- the result is the accumulator extended with every visited
array, never a failure. -/
theorem fetch_loop_preserves_values {V : Type} (server : String → ApiResp V) :
    ∀ (fuel : Nat) (u : String) (acc : List V),
      (∀ x ∈ (fetch_paginated_loop server fuel u acc).2,
        isValuesResp (server x) = true) →
      (fetch_paginated_loop server fuel u acc).1 =
        some (acc ++
          ((fetch_paginated_loop server fuel u acc).2.map
            (fun x => valuesOf (server x))).flatten) := by
  intro fuel
  induction fuel with
  | zero =>
    intro u acc _
    simp [fetch_paginated_loop]
  | succ f ih =>
    intro u acc hvis
    by_cases hu : u = ""
    · simp [fetch_paginated_loop, hu]
    · cases hs : server u with
      | malformed =>
        have := hvis u (by simp [fetch_paginated_loop, hu, hs])
        rw [hs] at this
        simp [isValuesResp] at this
      | valuesObj vs next =>
        cases next with
        | none => simp [fetch_paginated_loop, hu, hs, valuesOf]
        | some u2 =>
          by_cases hu2 : u2 = ""
          · simp [fetch_paginated_loop, hu, hs, hu2, valuesOf]
          · have hvis' : ∀ x ∈ (fetch_paginated_loop server f u2 (acc ++ vs)).2,
                isValuesResp (server x) = true := by
              intro x hx
              exact hvis x (by
                simp only [fetch_paginated_loop, if_neg hu, hs, if_neg hu2]
                exact List.mem_cons_of_mem u hx)
            simp only [fetch_paginated_loop, if_neg hu, hs, if_neg hu2,
              ih u2 (acc ++ vs) hvis', List.map_cons, List.flatten_cons, hs,
              List.append_assoc, valuesOf]
      | bareList items =>
        have := hvis u (by simp [fetch_paginated_loop, hu, hs])
        rw [hs] at this
        simp [isValuesResp] at this
      | bareObj it =>
        have := hvis u (by simp [fetch_paginated_loop, hu, hs])
        rw [hs] at this
        simp [isValuesResp] at this

/-- Claim C8: along a chain of pages each naming its successor, the
paginated fetch returns exactly the concatenation of every visited
`values` array and requests exactly the chain URLs, stopping at the
page omitting the link; it never visits more than 100 pages; and
whenever it stops (cap or missing link) the accumulated values are
preserved. -/
theorem fetch_paginated_behavior {V : Type} (server : String → ApiResp V) :
    (∀ (u : String) (vs : List V) (rest : List (String × List V)),
      isChain server ((u, vs) :: rest) →
      rest.length + 1 ≤ 100 →
      fetch_from_bitbucket_paginated server u =
        (some (vs ++ (rest.map Prod.snd).flatten), u :: rest.map Prod.fst))
    ∧ (∀ u : String,
      (fetch_from_bitbucket_paginated server u).2.length ≤ 100)
    ∧ (∀ u : String,
      (∀ x ∈ (fetch_from_bitbucket_paginated server u).2,
        isValuesResp (server x) = true) →
      (fetch_from_bitbucket_paginated server u).1 =
        some (((fetch_from_bitbucket_paginated server u).2.map
          (fun x => valuesOf (server x))).flatten)) := by
  refine ⟨?_, ?_, ?_⟩
  · intro u vs rest hch hlen
    have h := fetch_loop_chain server rest u vs 100 [] hch hlen
    simpa [fetch_from_bitbucket_paginated] using h
  · intro u
    exact fetch_loop_visited_le server 100 u []
  · intro u hvis
    have h := fetch_loop_preserves_values server 100 u [] hvis
    simpa [fetch_from_bitbucket_paginated] using h

/-- Concrete instantiation of the C8 theorem: three pages, the third
omitting the next link; exactly the three URLs are requested and all
values are returned in order. -/
theorem fetch_paginated_behavior_witness :
    fetch_from_bitbucket_paginated
        (fun u =>
          if u = "p1" then ApiResp.valuesObj [1, 2] (some "p2")
          else if u = "p2" then ApiResp.valuesObj [3] (some "p3")
          else if u = "p3" then ApiResp.valuesObj ([4, 5] : List Nat) none
          else ApiResp.malformed) "p1" =
      (some [1, 2, 3, 4, 5], ["p1", "p2", "p3"]) := by
  have h := (fetch_paginated_behavior
      (fun u =>
        if u = "p1" then ApiResp.valuesObj [1, 2] (some "p2")
        else if u = "p2" then ApiResp.valuesObj [3] (some "p3")
        else if u = "p3" then ApiResp.valuesObj ([4, 5] : List Nat) none
        else ApiResp.malformed)).1 "p1" [1, 2]
      [("p2", [3]), ("p3", [4, 5])]
      (by simp only [isChain]; refine ⟨by decide, by decide, by decide, by decide, by decide, by decide⟩)
      (by decide)
  exact h.trans (by decide)

/-! ## C2: the working-tree reconciliation -/

/-- Claim C2 fails as stated: a mapping key that was not previously
tracked and whose raw-content fetch failed is never written, so the
tracked set after reconciliation misses it. -/
theorem reconcile_missing_content_counterexample :
    reconcile_tracked ∅ ∅ {"a.txt"} = (∅ : Finset String)
    ∧ reconcile_tracked ∅ ∅ {"a.txt"} ≠ ({"a.txt"} : Finset String) := by
  refine ⟨by decide, by decide⟩

/-- Claim C2 (amended): provided every path of the new mapping was
already tracked or had its content fetched successfully, the tracked
set after reconciliation is exactly the mapping keys together with the
README when it was previously tracked; in particular every previously
tracked path absent from the mapping is removed and the README is never
removed. -/
theorem reconcile_tracked_amended (avail prior keys : Finset String)
    (h : keys ⊆ prior ∪ avail) :
    reconcile_tracked avail prior keys =
      keys ∪ prior.filter (fun p => p = readmeName) := by
  ext p
  have hp : p ∈ keys → p ∈ prior ∨ p ∈ avail := fun hk =>
    Finset.mem_union.mp (h hk)
  simp only [reconcile_tracked, files_written, git_rm_set, Finset.mem_sdiff,
    Finset.mem_union, Finset.mem_inter, Finset.mem_filter]
  tauto

/-- Concrete instantiation of the amended C2 theorem: the I2 round
trip.  Previous tracked set from mapping a/b plus the README; new
mapping b/c with both contents fetched; result is exactly b/c plus the
retained README, with a removed. -/
theorem reconcile_tracked_amended_witness :
    reconcile_tracked {"b.txt", "c.txt"} {"a.txt", "b.txt", "README.md"}
        {"b.txt", "c.txt"} =
      ({"b.txt", "c.txt", "README.md"} : Finset String) := by
  have h := reconcile_tracked_amended {"b.txt", "c.txt"}
      {"a.txt", "b.txt", "README.md"} {"b.txt", "c.txt"} (by decide)
  exact h.trans (by decide)

/-! ## C6: the synthesized latest-state commit -/

/-- Claim C6 fails as stated: when the detail payload embeds a file
whose self link matches the snippet-revision pattern, the synthesized
revision identifier is the captured revision hash, not the source
identifier. -/
theorem synth_sha_counterexample :
    (synth_pending "CN" "NOW" "abc" "T" none
        ⟨some [("f.txt",
            "https://api.bitbucket.org/2.0/snippets/ws/abc/deadbeef/files/f.txt")],
          some "2020-01-01", none, none⟩).commit_sha = "deadbeef"
    ∧ ("deadbeef" : String) ≠ "abc" := by
  refine ⟨by decide, by decide⟩

/-- Claim C6 (amended): the synthesized commit carries the source
identifier as revision identifier unless the detail payload embeds a
nonempty file listing whose first self link matches the
snippet-revision pattern, in which case the captured revision segment
wins; its timestamp is the updated timestamp, falling back to the
created timestamp, falling back to the current instant; its file
mapping is overridden by the detail payload itself. -/
theorem synth_pending_characterization (cname nowStr id title : String)
    (eo : Option OwnerInfo) (d : SnippetDetail) :
    ((synth_pending cname nowStr id title eo d).commit_sha =
      match d.files with
      | some ((_, href) :: _) => (searchSnippetRev href).getD id
      | _ => id)
    ∧ (synth_pending cname nowStr id title eo d).commit_date_str =
        some (d.updated_on.getD (d.created_on.getD nowStr))
    ∧ (synth_pending cname nowStr id title eo d).source_data_for_files_override =
        some d
    ∧ (d.files = none →
        (synth_pending cname nowStr id title eo d).commit_sha = id) := by
  refine ⟨?_, rfl, rfl, ?_⟩
  · show extract_head_sha id d = _
    cases hf : d.files with
    | none => simp [extract_head_sha, hf]
    | some fs =>
      cases fs with
      | nil => simp [extract_head_sha, hf]
      | cons p rest =>
        obtain ⟨n, href⟩ := p
        cases hs : searchSnippetRev href <;>
          simp [extract_head_sha, hf, hs]
  · intro hf
    show extract_head_sha id d = id
    simp [extract_head_sha, hf]

/-- Concrete instantiation of the amended C6 theorem: without an
embedded file listing the identifier is the source id and the timestamp
falls back to the created timestamp. -/
theorem synth_pending_characterization_witness :
    (synth_pending "CN" "NOW" "abc" "T" none
        ⟨none, none, some "2019-05-05", none⟩).commit_sha = "abc"
    ∧ (synth_pending "CN" "NOW" "abc" "T" none
        ⟨none, none, some "2019-05-05", none⟩).commit_date_str =
          some "2019-05-05" := by
  have h := synth_pending_characterization "CN" "NOW" "abc" "T" none
      ⟨none, none, some "2019-05-05", none⟩
  exact ⟨h.2.2.2 rfl, h.2.1.trans (by decide)⟩

/-! ## C10: the forged placeholder email of synthesized commits -/

/-- Claim C10 fails as stated: an owner nickname containing an opening
angle bracket shifts the split point, so the derived email is not the
placeholder. -/
theorem synth_author_email_counterexample :
    (derive_author "CN" "ce@example.org"
        (synth_pending "CN" "NOW" "id1" "T" (some ⟨some "x<y", none⟩)
          ⟨none, some "2020-01-01", none, none⟩).commit_author_obj).2 =
      "y <placeholder@example.com"
    ∧ ("y <placeholder@example.com" : String) ≠ "placeholder@example.com" := by
  refine ⟨by decide, by decide⟩

/-- Helper: the bracket branch of the author derivation, line 402-405. -/
theorem derive_author_eq_of_brackets (dn de : String) (a : AuthorObj)
    (raw : String) (hraw : a.raw = some raw) (hne : raw ≠ "")
    (hlt : containsChar raw '<' = true) (hgt : containsChar raw '>' = true) :
    derive_author dn de a =
      (orDefault (pyStrip (splitFirst '<' raw).1) dn,
       orDefault (pyStrip (removeChar '>' (splitFirst '<' raw).2)) de) := by
  simp only [derive_author, hraw, Option.getD_some]
  rw [if_pos ⟨hne, hlt, hgt⟩]

/-- Helper: splitting at the first occurrence of a character that is
absent from the left part lands exactly at that occurrence. -/
theorem splitFirstAux_append (c : Char) (l2 : List Char) :
    ∀ l1 : List Char, c ∉ l1 →
      splitFirstAux c (l1 ++ c :: l2) = (l1, l2) := by
  intro l1
  induction l1 with
  | nil =>
    intro _
    simp [splitFirstAux]
  | cons x xs ih =>
    intro h
    have hx : ¬ x = c := fun he => h (he ▸ List.mem_cons_self x xs)
    simp [splitFirstAux, hx, ih (fun hm => h (List.mem_cons_of_mem _ hm))]

/-- Claim C10 (amended): whenever the derived owner name contains no
opening angle bracket, the synthesized commit's parsed author email is
the placeholder address, regardless of the configured default committer
email and of the rest of the owner metadata. -/
theorem synth_author_email_placeholder (cname cemail nowStr id title : String)
    (eo : Option OwnerInfo) (d : SnippetDetail)
    (h : containsChar (synth_author_name cname eo d) '<' = false) :
    (derive_author cname cemail
        (synth_pending cname nowStr id title eo d).commit_author_obj).2 =
      "placeholder@example.com" := by
  set an := synth_author_name cname eo d with han
  have hnotin : '<' ∉ an.toList := by
    intro hm
    simp only [containsChar, List.contains, List.elem_eq_mem,
      decide_eq_false_iff_not] at h
    exact h hm
  have hdata : (an ++ " <placeholder@example.com>").toList =
      (an.toList ++ [' ']) ++ '<' :: "placeholder@example.com>".toList := by
    show (an ++ " <placeholder@example.com>").data = _
    rw [String.data_append]
    simp [String.toList, List.append_assoc]
  have hnotin' : '<' ∉ an.toList ++ [' '] := by
    intro hm
    rcases List.mem_append.mp hm with hm | hm
    · exact hnotin hm
    · simp at hm
  have hsplit : splitFirst '<' (an ++ " <placeholder@example.com>") =
      ((an.toList ++ [' ']).asString, "placeholder@example.com>") := by
    rw [splitFirst, hdata, splitFirstAux_append '<' _ _ hnotin']
    rfl
  have hne : an ++ " <placeholder@example.com>" ≠ "" := by
    intro he
    have h0 : (an ++ " <placeholder@example.com>").toList = [] := by
      rw [he]
      rfl
    rw [hdata] at h0
    simp at h0
  have hlt : containsChar (an ++ " <placeholder@example.com>") '<' = true := by
    rw [containsChar, hdata]
    simp [List.contains, List.elem_eq_mem]
  have hgt : containsChar (an ++ " <placeholder@example.com>") '>' = true := by
    rw [containsChar, hdata]
    simp [List.contains, List.elem_eq_mem]
  have hd := derive_author_eq_of_brackets cname cemail
    ⟨some (an ++ " <placeholder@example.com>"), some an, some an⟩
    (an ++ " <placeholder@example.com>") rfl hne hlt hgt
  show (derive_author cname cemail
      ⟨some (an ++ " <placeholder@example.com>"), some an, some an⟩).2 = _
  rw [hd]
  show orDefault
      (pyStrip (removeChar '>'
        (splitFirst '<' (an ++ " <placeholder@example.com>")).2)) cemail = _
  rw [hsplit]
  show orDefault (pyStrip (removeChar '>' "placeholder@example.com>")) cemail = _
  rw [show pyStrip (removeChar '>' "placeholder@example.com>") =
      "placeholder@example.com" from by decide]
  rw [orDefault, if_neg (by decide)]

/-- Concrete instantiation of the amended C10 theorem. -/
theorem synth_author_email_placeholder_witness :
    (derive_author "CN" "configured@example.org"
        (synth_pending "CN" "NOW" "id1" "T" (some ⟨some "alice", none⟩)
          ⟨none, some "2020-01-01", none, none⟩).commit_author_obj).2 =
      "placeholder@example.com" := by
  exact synth_author_email_placeholder "CN" "configured@example.org" "NOW" "id1" "T"
    (some ⟨some "alice", none⟩) ⟨none, some "2020-01-01", none, none⟩ (by decide)

/-! ## C5: source representation and synthesis uniqueness -/

/-- Helper: every pending commit an entry contributes carries that
entry's snippet id. -/
theorem snippet_block_core_ids (historical : Bool) (cn ns id : String)
    (t0 : Option String) (ow : Option OwnerInfo) (v : SnippetEnv) :
    ∀ pc ∈ snippet_block_core historical cn ns id t0 ow v,
      pc.snippet_id = id := by
  intro pc hpc
  cases hh : historical with
  | false =>
    cases hdf : v.detail_fetch with
    | none =>
      simp [snippet_block_core, hh, hdf] at hpc
    | some d =>
      simp [snippet_block_core, hh, hdf] at hpc
      subst hpc
      rfl
  | true =>
    cases hcf : v.commits_fetch with
    | none =>
      cases hdf : v.detail_fetch with
      | none =>
        simp [snippet_block_core, hh, hcf, hdf] at hpc
      | some d =>
        simp [snippet_block_core, hh, hcf, hdf] at hpc
        subst hpc
        rfl
    | some cs =>
      by_cases hcs : cs = []
      · cases hdf : v.detail_fetch with
        | none =>
          simp [snippet_block_core, hh, hcf, hcs, hdf] at hpc
        | some d =>
          simp [snippet_block_core, hh, hcf, hcs, hdf] at hpc
          subst hpc
          rfl
      · have hany : (cs.map (real_pending id
            (t0.getD ("Untitled_Snippet_" ++ id)))).any (isRealOf id) = true := by
          cases cs with
          | nil => exact absurd rfl hcs
          | cons c cs' => simp [isRealOf, real_pending]
        simp only [snippet_block_core, hh, hcf, if_pos hcs, if_neg,
          Bool.not_true, Bool.false_or, hany, Bool.not_eq_true'] at hpc
        rcases List.mem_map.mp (by simpa [hcs, hany] using hpc) with ⟨c, _, rfl⟩
        rfl

/-- Helper: with the detail fetch succeeding, an entry contributes at
least one pending commit, at most one synthesized one, and a
synthesized one exactly when it contributed no real revision. -/
theorem snippet_block_core_counts (historical : Bool) (cn ns id : String)
    (t0 : Option String) (ow : Option OwnerInfo) (v : SnippetEnv)
    (d : SnippetDetail) (hdf : v.detail_fetch = some d) :
    snippet_block_core historical cn ns id t0 ow v ≠ []
    ∧ synth_count (snippet_block_core historical cn ns id t0 ow v) id ≤ 1
    ∧ (synth_count (snippet_block_core historical cn ns id t0 ow v) id = 1 ↔
        real_count (snippet_block_core historical cn ns id t0 ow v) id = 0) := by
  cases hh : historical with
  | false =>
    have hblock : snippet_block_core false cn ns id t0 ow v =
        [synth_pending cn ns id (t0.getD ("Untitled_Snippet_" ++ id)) ow d] := by
      simp [snippet_block_core, hh, hdf]
    rw [hblock]
    refine ⟨by simp, ?_, ?_⟩ <;>
      simp [synth_count, real_count, isRealOf, synth_pending, List.filter]
  | true =>
    cases hcf : v.commits_fetch with
    | none =>
      have hblock : snippet_block_core true cn ns id t0 ow v =
          [synth_pending cn ns id (t0.getD ("Untitled_Snippet_" ++ id)) ow d] := by
        simp [snippet_block_core, hcf, hdf]
      rw [hblock]
      refine ⟨by simp, ?_, ?_⟩ <;>
        simp [synth_count, real_count, isRealOf, synth_pending, List.filter]
    | some cs =>
      by_cases hcs : cs = []
      · have hblock : snippet_block_core true cn ns id t0 ow v =
            [synth_pending cn ns id (t0.getD ("Untitled_Snippet_" ++ id)) ow d] := by
          simp [snippet_block_core, hcf, hcs, hdf]
        rw [hblock]
        refine ⟨by simp, ?_, ?_⟩ <;>
          simp [synth_count, real_count, isRealOf, synth_pending, List.filter]
      · have hany : (cs.map (real_pending id
            (t0.getD ("Untitled_Snippet_" ++ id)))).any (isRealOf id) = true := by
          cases cs with
          | nil => exact absurd rfl hcs
          | cons c cs' => simp [isRealOf, real_pending]
        have hblock : snippet_block_core true cn ns id t0 ow v =
            cs.map (real_pending id (t0.getD ("Untitled_Snippet_" ++ id))) := by
          simp [snippet_block_core, hcf, hcs, hany]
        rw [hblock]
        have hsynth : synth_count (cs.map (real_pending id
            (t0.getD ("Untitled_Snippet_" ++ id)))) id = 0 := by
          rw [synth_count, List.filter_map]
          have hnil : cs.filter ((fun pc => pc.snippet_id == id &&
              pc.source_data_for_files_override.isSome) ∘
              real_pending id (t0.getD ("Untitled_Snippet_" ++ id))) = [] := by
            rw [List.filter_eq_nil_iff]
            intro c _
            simp [Function.comp, real_pending]
          rw [hnil]
          rfl
        have hreal : real_count (cs.map (real_pending id
            (t0.getD ("Untitled_Snippet_" ++ id)))) id = cs.length := by
          rw [real_count, List.filter_map]
          have hall : cs.filter (isRealOf id ∘
              real_pending id (t0.getD ("Untitled_Snippet_" ++ id))) = cs := by
            rw [List.filter_eq_self]
            intro c _
            simp [Function.comp, isRealOf, real_pending]
          rw [hall, List.length_map]
        refine ⟨by simpa using hcs, ?_, ?_⟩
        · rw [hsynth]
          omega
        · rw [hsynth, hreal]
          simp [hcs]

/-- Helper: when the accumulator holds no pending commit of this
entry's id -- the situation the global `any` probe of line 323 tests --
processing the entry appends exactly its own block. -/
theorem process_snippet_eq_append (historical : Bool) (cn ns : String)
    (acc : List PendingCommit) (e : SnippetCatalogEntry) (v : SnippetEnv)
    (hacc : ∀ pc ∈ acc, ∀ i, e.id = some i → pc.snippet_id ≠ i) :
    process_snippet historical cn ns acc e v =
      acc ++ snippet_block historical cn ns e v := by
  cases hid : e.id with
  | none => simp [process_snippet, snippet_block, hid]
  | some i =>
    have haccfalse : acc.any (isRealOf i) = false := by
      rw [List.any_eq_false]
      intro pc hpc
      simp [isRealOf, hacc pc hpc i hid]
    cases hh : historical with
    | false =>
      cases hdf : v.detail_fetch <;>
        simp [process_snippet, snippet_block, snippet_block_core, hid, hdf,
          List.any_append, haccfalse]
    | true =>
      cases hcf : v.commits_fetch with
      | none =>
        cases hdf : v.detail_fetch <;>
          simp [process_snippet, snippet_block, snippet_block_core, hid, hcf,
            hdf, List.any_append, haccfalse]
      | some cs =>
        by_cases hcs : cs = []
        · cases hdf : v.detail_fetch <;>
            simp [process_snippet, snippet_block, snippet_block_core, hid, hcf,
              hcs, hdf, List.any_append, haccfalse]
        · have hany : (cs.map (real_pending i
              (e.title.getD ("Untitled_Snippet_" ++ i)))).any (isRealOf i) = true := by
            cases cs with
            | nil => exact absurd rfl hcs
            | cons c cs' => simp [isRealOf, real_pending]
          simp [process_snippet, snippet_block, snippet_block_core, hid, hcf,
            hcs, List.any_append, haccfalse, hany]

/-- Helper: with distinct usable catalog ids, the Phase-1 fold is the
concatenation of the per-entry blocks. -/
theorem aggregate_foldl_eq (historical : Bool) (cn ns : String) :
    ∀ (snippets : List (SnippetCatalogEntry × SnippetEnv)) (acc : List PendingCommit),
      (usable_ids snippets).Nodup →
      (∀ pc ∈ acc, ∀ se ∈ snippets, ∀ i, se.1.id = some i → pc.snippet_id ≠ i) →
      snippets.foldl (fun a se => process_snippet historical cn ns a se.1 se.2) acc =
        acc ++ (snippets.map
          (fun se => snippet_block historical cn ns se.1 se.2)).flatten := by
  intro snippets
  induction snippets with
  | nil =>
    intro acc _ _
    simp
  | cons se rest ih =>
    intro acc hnd hacc
    have hacc1 : ∀ pc ∈ acc, ∀ i, se.1.id = some i → pc.snippet_id ≠ i := by
      intro pc hpc i hid
      exact hacc pc hpc se (List.mem_cons_self se rest) i hid
    rw [List.foldl_cons,
      process_snippet_eq_append historical cn ns acc se.1 se.2 hacc1]
    have hnd' : (usable_ids rest).Nodup := by
      rw [usable_ids, List.filterMap_cons] at hnd
      cases hid : se.1.id with
      | none =>
        rw [hid] at hnd
        exact hnd
      | some i =>
        rw [hid] at hnd
        exact (List.nodup_cons.mp hnd).2
    have hacc' : ∀ pc ∈ acc ++ snippet_block historical cn ns se.1 se.2,
        ∀ se' ∈ rest, ∀ i, se'.1.id = some i → pc.snippet_id ≠ i := by
      intro pc hpc se' hse' i hid'
      rcases List.mem_append.mp hpc with hpc | hpc
      · exact hacc pc hpc se' (List.mem_cons_of_mem _ hse') i hid'
      · cases hid : se.1.id with
        | none =>
          rw [snippet_block, hid] at hpc
          cases hpc
        | some j =>
          rw [snippet_block, hid] at hpc
          have hj : pc.snippet_id = j :=
            snippet_block_core_ids historical cn ns j se.1.title se.1.owner
              se.2 pc hpc
          rw [hj]
          intro hji
          have hmem : i ∈ usable_ids rest := by
            rw [usable_ids, List.mem_filterMap]
            exact ⟨se', hse', hid'⟩
          rw [usable_ids, List.filterMap_cons, hid] at hnd
          exact (List.nodup_cons.mp hnd).1 (hji ▸ hmem)
    rw [ih (acc ++ snippet_block historical cn ns se.1 se.2) hnd' hacc']
    simp [List.append_assoc]

/-- Helper: an entry's block passes its own id filter unchanged. -/
theorem snippet_block_filter_self (historical : Bool) (cn ns : String)
    (e : SnippetCatalogEntry) (v : SnippetEnv) (i : String)
    (hid : e.id = some i) :
    (snippet_block historical cn ns e v).filter
        (fun pc => pc.snippet_id == i) =
      snippet_block historical cn ns e v := by
  rw [List.filter_eq_self]
  intro pc hpc
  rw [snippet_block, hid] at hpc
  have h := snippet_block_core_ids historical cn ns i e.title e.owner v pc hpc
  simp [h]

/-- Helper: with distinct usable catalog ids, the pending commits of id
`i` in the whole aggregation are exactly the block of the entry that
carries id `i`. -/
theorem aggregate_filter_id (historical : Bool) (cn ns : String) :
    ∀ snippets : List (SnippetCatalogEntry × SnippetEnv),
      (usable_ids snippets).Nodup →
      ∀ se ∈ snippets, ∀ i, se.1.id = some i →
        (aggregate historical cn ns snippets).filter
            (fun pc => pc.snippet_id == i) =
          snippet_block historical cn ns se.1 se.2 := by
  intro snippets
  induction snippets with
  | nil =>
    intro _ se h
    cases h
  | cons se0 rest ih =>
    intro hnd se hse i hid
    have hnd' : (usable_ids rest).Nodup := by
      rw [usable_ids, List.filterMap_cons] at hnd
      cases hid0 : se0.1.id with
      | none =>
        rw [hid0] at hnd
        exact hnd
      | some j =>
        rw [hid0] at hnd
        exact (List.nodup_cons.mp hnd).2
    have hagg : aggregate historical cn ns (se0 :: rest) =
        snippet_block historical cn ns se0.1 se0.2 ++
          aggregate historical cn ns rest := by
      rw [aggregate, aggregate_foldl_eq historical cn ns (se0 :: rest) [] hnd
          (by intro pc hpc; cases hpc),
        aggregate, aggregate_foldl_eq historical cn ns rest [] hnd'
          (by intro pc hpc; cases hpc)]
      simp
    rw [hagg, List.filter_append]
    rcases List.mem_cons.mp hse with rfl | hse'
    · rw [snippet_block_filter_self historical cn ns se.1 se.2 i hid]
      have hrest : (aggregate historical cn ns rest).filter
          (fun pc => pc.snippet_id == i) = [] := by
        rw [aggregate, aggregate_foldl_eq historical cn ns rest [] hnd'
            (by intro pc hpc; cases hpc), List.nil_append,
          List.filter_eq_nil_iff]
        intro pc hpc
        rw [List.mem_flatten] at hpc
        obtain ⟨l, hl, hpcl⟩ := hpc
        rw [List.mem_map] at hl
        obtain ⟨se', hse', rfl⟩ := hl
        cases hid' : se'.1.id with
        | none =>
          rw [snippet_block, hid'] at hpcl
          cases hpcl
        | some j =>
          rw [snippet_block, hid'] at hpcl
          have hj : pc.snippet_id = j :=
            snippet_block_core_ids historical cn ns j se'.1.title se'.1.owner
              se'.2 pc hpcl
          have hji : j ≠ i := by
            intro he
            have hmem : j ∈ usable_ids rest := by
              rw [usable_ids, List.mem_filterMap]
              exact ⟨se', hse', hid'⟩
            rw [usable_ids, List.filterMap_cons, hid] at hnd
            exact (List.nodup_cons.mp hnd).1 (he ▸ hmem)
          simp [hj, hji]
      rw [hrest, List.append_nil]
    · have h0 : (snippet_block historical cn ns se0.1 se0.2).filter
          (fun pc => pc.snippet_id == i) = [] := by
        rw [List.filter_eq_nil_iff]
        intro pc hpc
        cases hid0 : se0.1.id with
        | none =>
          rw [snippet_block, hid0] at hpc
          cases hpc
        | some j =>
          rw [snippet_block, hid0] at hpc
          have hj : pc.snippet_id = j :=
            snippet_block_core_ids historical cn ns j se0.1.title se0.1.owner
              se0.2 pc hpc
          have hji : j ≠ i := by
            intro he
            have hmem : i ∈ usable_ids rest := by
              rw [usable_ids, List.mem_filterMap]
              exact ⟨se, hse', hid⟩
            rw [usable_ids, List.filterMap_cons, hid0] at hnd
            exact (List.nodup_cons.mp hnd).1 (he ▸ hmem)
          simp [hj, hji]
      rw [h0, List.nil_append]
      exact ih hnd' se hse' i hid

/-- Helper: equal id-filtered sublists give equal synthesized and real
revision counts. -/
theorem counts_eq_of_filter_eq (l b : List PendingCommit) (i : String)
    (h : l.filter (fun pc => pc.snippet_id == i) =
      b.filter (fun pc => pc.snippet_id == i)) :
    synth_count l i = synth_count b i ∧ real_count l i = real_count b i := by
  have hs : ∀ m : List PendingCommit,
      m.filter (fun pc => pc.snippet_id == i &&
        pc.source_data_for_files_override.isSome) =
      (m.filter (fun pc => pc.snippet_id == i)).filter
        (fun pc => pc.source_data_for_files_override.isSome) := by
    intro m
    rw [List.filter_filter]
    exact List.filter_congr (fun a _ => Bool.and_comm _ _)
  have hr : ∀ m : List PendingCommit,
      m.filter (isRealOf i) =
      (m.filter (fun pc => pc.snippet_id == i)).filter
        (fun pc => pc.source_data_for_files_override.isNone) := by
    intro m
    rw [List.filter_filter]
    exact List.filter_congr (fun a _ => Bool.and_comm _ _)
  constructor
  · rw [synth_count, synth_count, hs, hs, h]
  · rw [real_count, real_count, hr, hr, h]

/-- Claim C5 fails as stated: a source with a usable identifier whose
detail fetch fails when the latest state is needed is skipped outright,
leaving it with no pending commit at all. -/
theorem aggregate_missing_source_counterexample :
    aggregate false "n" "now" [(⟨some "s1", none, none⟩, ⟨none, none⟩)] = []
    ∧ (⟨some "s1", none, none⟩ : SnippetCatalogEntry).id = some "s1" :=
  ⟨rfl, rfl⟩

/-- Claim C5 (amended): provided each usable identifier occurs at most
once in the catalog and the entry's detail fetch succeeds, the source
is represented by at least one pending commit, at most one synthesized
latest-state commit exists for it, and a synthesized commit exists
exactly when no real revision of that source was aggregated. -/
theorem aggregate_representation (historical : Bool) (cn ns : String)
    (snippets : List (SnippetCatalogEntry × SnippetEnv))
    (hnd : (usable_ids snippets).Nodup)
    (se : SnippetCatalogEntry × SnippetEnv) (hse : se ∈ snippets)
    (i : String) (hid : se.1.id = some i)
    (d : SnippetDetail) (hdf : se.2.detail_fetch = some d) :
    (aggregate historical cn ns snippets).filter
        (fun pc => pc.snippet_id == i) ≠ []
    ∧ synth_count (aggregate historical cn ns snippets) i ≤ 1
    ∧ (synth_count (aggregate historical cn ns snippets) i = 1 ↔
        real_count (aggregate historical cn ns snippets) i = 0) := by
  have hfilter := aggregate_filter_id historical cn ns snippets hnd se hse i hid
  have hblock : snippet_block historical cn ns se.1 se.2 =
      snippet_block_core historical cn ns i se.1.title se.1.owner se.2 := by
    rw [snippet_block, hid]
  have hbf := snippet_block_filter_self historical cn ns se.1 se.2 i hid
  have hcounts := snippet_block_core_counts historical cn ns i se.1.title
    se.1.owner se.2 d hdf
  have htrans := counts_eq_of_filter_eq
    (aggregate historical cn ns snippets)
    (snippet_block historical cn ns se.1 se.2) i
    (hfilter.trans hbf.symm)
  refine ⟨?_, ?_, ?_⟩
  · rw [hfilter, hblock]
    exact hcounts.1
  · rw [htrans.1, hblock]
    exact hcounts.2.1
  · rw [htrans.1, htrans.2, hblock]
    exact hcounts.2.2

/-- Concrete instantiation of the amended C5 theorem: one source with
no history gets exactly one synthesized pending commit. -/
theorem aggregate_representation_witness :
    (aggregate false "CN" "NOW"
        [(⟨some "s1", none, none⟩,
          ⟨none, some ⟨none, some "2020-01-01", none, none⟩⟩)]).filter
        (fun pc => pc.snippet_id == "s1") ≠ []
    ∧ synth_count (aggregate false "CN" "NOW"
        [(⟨some "s1", none, none⟩,
          ⟨none, some ⟨none, some "2020-01-01", none, none⟩⟩)]) "s1" = 1 := by
  have h := aggregate_representation false "CN" "NOW"
    [(⟨some "s1", none, none⟩,
      ⟨none, some ⟨none, some "2020-01-01", none, none⟩⟩)]
    (by decide)
    (⟨some "s1", none, none⟩,
      ⟨none, some ⟨none, some "2020-01-01", none, none⟩⟩)
    (List.mem_singleton_self _) "s1" rfl
    ⟨none, some "2020-01-01", none, none⟩ rfl
  exact ⟨h.1, h.2.2.mpr (by decide)⟩

end SnippetBackup
